import Mathlib

/-!
UnrolledLoop and SubmitComputeUnits

A shallow embedding of `include/unrolled_loop.hpp` and
`Tutorials/DesignPatterns/compute_units/src/compute_units.hpp`.

Everything in the two headers happens during template instantiation.  A
template instantiation either yields a type (here: a sequence of constants) or
is ill-formed; the embedding returns `Option`, with `none` for an ill-formed
instantiation.  Integral values are mathematical integers together with the
element type they are checked against.
-/

namespace UnrolledLoopSpec

/-! ## Integral types and constant expressions -/

/-- An integral element type, given by its width in bits and its signedness. -/
structure IntType where
  bits : Nat
  isSigned : Bool
deriving DecidableEq, Repr

namespace IntType

/-- Smallest value of the type (two's complement for signed types). -/
def minVal (T : IntType) : Int :=
  if T.isSigned then -(2 ^ (T.bits - 1)) else 0

/-- Largest value of the type. -/
def maxVal (T : IntType) : Int :=
  if T.isSigned then 2 ^ (T.bits - 1) - 1 else 2 ^ T.bits - 1

/-- The value `x` is representable in the type. -/
def inRange (T : IntType) (x : Int) : Prop :=
  T.minVal ≤ x ∧ x ≤ T.maxVal

instance (T : IntType) (x : Int) : Decidable (T.inRange x) :=
  inferInstanceAs (Decidable (T.minVal ≤ x ∧ x ≤ T.maxVal))

end IntType

/-- The type `char` of the usage examples (taken as signed, 8 bits). -/
def char_t : IntType := ⟨8, true⟩

/-- The type `signed char`. -/
def schar_t : IntType := ⟨8, true⟩

/-- The type `unsigned char`. -/
def uchar_t : IntType := ⟨8, false⟩

/-- The type `int`. -/
def int_t : IntType := ⟨32, true⟩

/-- The type `std::size_t`. -/
def size_t : IntType := ⟨64, false⟩

/-- Integral promotion: operands of a type narrower than `int` are computed in
`int`, every other type is computed in itself. -/
def promote (T : IntType) : IntType :=
  if T.bits < int_t.bits then int_t else T

/-- Evaluation of a constant expression whose mathematical value is `x`, in the
arithmetic type `P`: signed overflow is not a constant expression, unsigned
arithmetic is modulo `2 ^ bits`. -/
def constEval (P : IntType) (x : Int) : Option Int :=
  if P.isSigned then (if P.inRange x then some x else none)
  else some (x % 2 ^ P.bits)

/-- Conversion of a constant to a template parameter of type `T`: a narrowing
conversion is ill-formed. -/
def convertTo (T : IntType) (v : Int) : Option Int :=
  if T.inRange v then some v else none

/-- A template argument for a parameter of type `T`, written as an arithmetic
expression over operands of type `T` whose mathematical value is `x`. -/
def templateArg (T : IntType) (x : Int) : Option Int :=
  (constEval (promote T) x).bind (convertTo T)

/-! ## Sequences of constants -/

/-- The type `std::integer_sequence<T, inds...>`. -/
structure integer_sequence where
  T : IntType
  inds : List Int
deriving DecidableEq, Repr

/-- The type `std::integral_constant<T, value>`. -/
structure integral_constant where
  T : IntType
  value : Int
deriving DecidableEq, Repr

/-- The alias `std::make_integer_sequence<T, N>`: the constants `0, ..., N-1`;
ill-formed for a negative `N`. -/
def make_integer_sequence (T : IntType) (N : Int) : Option integer_sequence :=
  if N < 0 then none
  else some ⟨T, (List.range N.toNat).map Int.ofNat⟩

/-- The alias `std::make_index_sequence<N>`. -/
def make_index_sequence (N : Nat) : integer_sequence :=
  ⟨size_t, (List.range N).map Int.ofNat⟩

/-- A pack expansion `g(N)...` as template arguments: one argument for each
element of the pack, ill-formed as soon as one of them is. -/
def packExpand (g : Int → Option Int) : List Int → Option (List Int)
  | [] => some []
  | n :: ns =>
    match g n, packExpand g ns with
    | some v, some vs => some (v :: vs)
    | _, _ => none

/-- The struct `integer_range_impl<T, std::integer_sequence<T, N...>, begin, increase>`:
`N + begin...` in the incrementing case, `begin - N...` in the decrementing
case. -/
def integer_range_impl (T : IntType) (s : integer_sequence) (begin : Int)
    (increase : Bool) : Option integer_sequence :=
  if increase then
    (packExpand (fun N => templateArg T (N + begin)) s.inds).map (integer_sequence.mk T)
  else
    (packExpand (fun N => templateArg T (begin - N)) s.inds).map (integer_sequence.mk T)

/-- The alias `integer_range<T, begin, end>`. -/
def integer_range (T : IntType) (begin end_ : Int) : Option integer_sequence :=
  (templateArg T (if begin < end_ then end_ - begin else begin - end_)).bind fun n =>
  (make_integer_sequence T n).bind fun s =>
  integer_range_impl T s begin (decide (begin < end_))

/-- The alias `make_integer_range<T, begin, end>`. -/
def make_integer_range (T : IntType) (begin end_ : Int) : Option integer_sequence :=
  integer_range T begin end_

/-- The alias `make_index_range<begin, end>`. -/
def make_index_range (begin end_ : Nat) : Option integer_sequence :=
  integer_range size_t begin end_

/-! ## UnrolledLoop

The callable is a state transformer indexed by the constant it receives: it may
read and write whatever it captured. -/

/-- The base implementation: the fold `(f(std::integral_constant<ItType, inds>{}), ...)`
over the comma operator, evaluated left to right. -/
def UnrolledLoop {σ : Type} (s : integer_sequence) (f : integral_constant → σ → σ)
    (st : σ) : σ :=
  s.inds.foldl (fun acc i => f ⟨s.T, i⟩ acc) st

/-- Case A, `UnrolledLoop<ItType, n>(f)`. -/
def UnrolledLoopA {σ : Type} (ItType : IntType) (n : Int)
    (f : integral_constant → σ → σ) (st : σ) : Option σ :=
  (make_integer_sequence ItType n).map fun s => UnrolledLoop s f st

/-- Case B, `UnrolledLoop<n>(f)`. -/
def UnrolledLoopB {σ : Type} (n : Nat) (f : integral_constant → σ → σ) (st : σ) : σ :=
  UnrolledLoop (make_index_sequence n) f st

/-- Case C, `UnrolledLoop<ItType, start, end>(f)`. -/
def UnrolledLoopC {σ : Type} (ItType : IntType) (start end_ : Int)
    (f : integral_constant → σ → σ) (st : σ) : Option σ :=
  (make_integer_range ItType start end_).map fun s => UnrolledLoop s f st

/-- Case D, `UnrolledLoop<start, end>(f)`. -/
def UnrolledLoopD {σ : Type} (start end_ : Nat)
    (f : integral_constant → σ → σ) (st : σ) : Option σ :=
  (make_index_range start end_).map fun s => UnrolledLoop s f st

/-- Instrumentation of a callable: next to its own effect, every invocation
appends the constant it received to a log. -/
def traced {σ : Type} (f : integral_constant → σ → σ) :
    integral_constant → σ × List integral_constant → σ × List integral_constant :=
  fun i p => (f i p.1, p.2 ++ [i])

/-! ## SubmitComputeUnits -/

/-- The type `Name<ID>`, a specialisation of the class template `Name`. -/
structure KernelName (τ : Type) where
  Name : τ
  ID : Nat
deriving DecidableEq, Repr

/-- One call of `single_task`: the kernel name and the task. -/
structure Submission (τ σ : Type) where
  name : KernelName τ
  task : σ → σ

/-- The queue, as the list of submissions made to it so far. -/
abbrev queue (τ σ : Type) : Type := List (Submission τ σ)

/-- The call `q.single_task<KernelName>(task)`. -/
def single_task {τ σ : Type} (q : queue τ σ) (name : KernelName τ) (task : σ → σ) :
    queue τ σ :=
  q ++ [⟨name, task⟩]

/-- The function `SubmitComputeUnits<N, Name>(q, f)`. -/
def SubmitComputeUnits {τ σ : Type} (N : Nat) (Name : τ)
    (f : integral_constant → σ → σ) (q : queue τ σ) : queue τ σ :=
  UnrolledLoopB N
    (fun i q => single_task q ⟨Name, i.value.toNat⟩ (fun st => f ⟨size_t, i.value⟩ st)) q

/-! ## Reference sequences -/

/-- The list `[b, b+1, ..., b+n-1]`. -/
def ascending (b : Int) (n : Nat) : List Int :=
  (List.range n).map fun (k : Nat) => b + (k : Int)

/-- The list `[b, b-1, ..., b-n+1]`. -/
def descending (b : Int) (n : Nat) : List Int :=
  (List.range n).map fun (k : Nat) => b - (k : Int)

/-- The list from `b` towards `e`, `e` excluded: ascending when `b < e`,
descending otherwise. -/
def rangeList (b e : Int) : List Int :=
  if b < e then ascending b (e - b).toNat else descending b (b - e).toNat

/-- The value `x` lies in the half-open range from `b` towards `e`. -/
def inHalfOpen (b e x : Int) : Prop :=
  (b < e ∧ b ≤ x ∧ x < e) ∨ (b > e ∧ e < x ∧ x ≤ b)

/-- The compute unit with identity `i`: the kernel name `Name<i>` and the task
calling `f(std::integral_constant<std::size_t, i>())`. -/
def computeUnit {τ σ : Type} (Name : τ) (f : integral_constant → σ → σ) (i : Nat) :
    Submission τ σ :=
  ⟨⟨Name, i⟩, fun st => f ⟨size_t, (i : Int)⟩ st⟩

/-! ## Constant expressions: auxiliary facts -/

theorem two_pow_le_of_le {m n : Nat} (h : m ≤ n) : (2 : Int) ^ m ≤ 2 ^ n :=
  pow_le_pow_right₀ (by norm_num) h

theorem two_pow_pos (n : Nat) : (0 : Int) < 2 ^ n := by positivity

theorem IntType.minVal_nonpos (T : IntType) : T.minVal ≤ 0 := by
  unfold IntType.minVal
  have := two_pow_pos (T.bits - 1)
  split <;> omega

theorem IntType.maxVal_nonneg (T : IntType) : 0 ≤ T.maxVal := by
  unfold IntType.maxVal
  have h1 := two_pow_pos (T.bits - 1)
  have h2 := two_pow_pos T.bits
  split <;> omega

theorem IntType.inRange_zero (T : IntType) : T.inRange 0 :=
  ⟨T.minVal_nonpos, T.maxVal_nonneg⟩

/-- Every value of a type narrower than `int` is a value of `int`. -/
theorem int_inRange_of_narrow (T : IntType) (h : T.bits < int_t.bits) (x : Int)
    (hx : T.inRange x) : int_t.inRange x := by
  have h1 : (2 : Int) ^ (T.bits - 1) ≤ 2 ^ 31 :=
    two_pow_le_of_le (by simp only [int_t] at h; omega)
  have h2 : (2 : Int) ^ T.bits ≤ 2 ^ 31 :=
    two_pow_le_of_le (by simp only [int_t] at h; omega)
  have h3 := two_pow_pos (T.bits - 1)
  obtain ⟨hlo, hhi⟩ := hx
  unfold IntType.minVal at hlo
  unfold IntType.maxVal at hhi
  constructor
  · show -(2 : Int) ^ (32 - 1) ≤ x
    norm_num at h1 h2 ⊢
    split at hlo <;> omega
  · show x ≤ (2 : Int) ^ (32 - 1) - 1
    norm_num at h1 h2 ⊢
    split at hhi <;> omega

/-- A representable value is a well-formed template argument, unchanged. -/
theorem templateArg_of_inRange (T : IntType) (x : Int) (hx : T.inRange x) :
    templateArg T x = some x := by
  unfold templateArg promote
  by_cases hn : T.bits < int_t.bits
  · have hi := int_inRange_of_narrow T hn x hx
    rw [if_pos hn]
    have hsg : int_t.isSigned = true := rfl
    simp [constEval, hsg, hi, convertTo, hx]
  · rw [if_neg hn]
    unfold constEval
    cases hs : T.isSigned
    · have hlo : 0 ≤ x := by
        have := hx.1
        simpa [IntType.minVal, hs] using this
      have hhi : x < 2 ^ T.bits := by
        have := hx.2
        simp only [IntType.maxVal, hs] at this
        simp at this
        omega
      simp [Int.emod_eq_of_lt hlo hhi, convertTo, hx]
    · simp [hx, convertTo]

/-- For a signed type, a value that is not representable is ill-formed as a
template argument. -/
theorem templateArg_signed_none (T : IntType) (x : Int) (hs : T.isSigned = true)
    (hx : ¬ T.inRange x) : templateArg T x = none := by
  unfold templateArg promote
  by_cases hn : T.bits < int_t.bits
  · rw [if_pos hn]
    unfold constEval
    have hsg : int_t.isSigned = true := rfl
    by_cases hi : int_t.inRange x
    · simp [hsg, hi, convertTo, hx]
    · simp [hsg, hi]
  · rw [if_neg hn]
    simp [constEval, hs, hx]

theorem packExpand_of_forall (g : Int → Option Int) (h : Int → Int) (l : List Int)
    (hg : ∀ n ∈ l, g n = some (h n)) : packExpand g l = some (l.map h) := by
  induction l with
  | nil => rfl
  | cons n ns ih =>
    have h1 : g n = some (h n) := hg n (List.mem_cons_self n ns)
    have h2 := ih (fun m hm => hg m (List.mem_cons_of_mem n hm))
    simp [packExpand, h1, h2]

/-! ## The range generator: auxiliary facts -/

/-- The distance between two values of an unsigned type is a value of the type. -/
theorem span_inRange_of_unsigned (T : IntType) (hs : T.isSigned = false) (lo hi : Int)
    (hlo : T.inRange lo) (hhi : T.inRange hi) (hle : lo ≤ hi) : T.inRange (hi - lo) := by
  obtain ⟨h1, _⟩ := hlo
  obtain ⟨_, h4⟩ := hhi
  simp only [IntType.minVal, hs] at h1
  simp at h1
  exact ⟨by have := T.minVal_nonpos; omega, by omega⟩

/-- The distance is representable when the type is unsigned, or when it is at
most the largest value of the type. -/
theorem span_inRange (T : IntType) (lo hi : Int) (hlo : T.inRange lo) (hhi : T.inRange hi)
    (hle : lo ≤ hi) (hspan : T.isSigned = true → hi - lo ≤ T.maxVal) :
    T.inRange (hi - lo) := by
  cases hs : T.isSigned
  · exact span_inRange_of_unsigned T hs lo hi hlo hhi hle
  · exact ⟨by have := T.minVal_nonpos; omega, hspan hs⟩

theorem make_integer_sequence_of_nonneg (T : IntType) (n : Int) (hn : 0 ≤ n) :
    make_integer_sequence T n = some ⟨T, (List.range n.toNat).map Int.ofNat⟩ := by
  unfold make_integer_sequence
  rw [if_neg (by omega)]

/-- The incrementing case, when the count `end - begin` is representable. -/
theorem integer_range_of_lt (T : IntType) (b e : Int) (hb : T.inRange b)
    (he : T.inRange e) (hlt : b < e) (hspan : T.inRange (e - b)) :
    integer_range T b e = some ⟨T, ascending b (e - b).toNat⟩ := by
  unfold integer_range
  rw [if_pos hlt, templateArg_of_inRange T _ hspan]
  simp only [Option.some_bind]
  rw [make_integer_sequence_of_nonneg T _ (by omega)]
  simp only [Option.some_bind, integer_range_impl, decide_eq_true hlt, if_true]
  rw [packExpand_of_forall _ (fun N => N + b)]
  · simp [ascending, List.map_map, Function.comp_def, add_comm]
  · intro n hn
    simp only [List.mem_map, List.mem_range] at hn
    obtain ⟨k, hk, rfl⟩ := hn
    apply templateArg_of_inRange
    have hk2 : (k : Int) < e - b := by omega
    exact ⟨by have := hb.1; simp only [Int.ofNat_eq_coe]; omega,
      by have := he.2; simp only [Int.ofNat_eq_coe]; omega⟩

/-- The decrementing case, when the count `begin - end` is representable. -/
theorem integer_range_of_not_lt (T : IntType) (b e : Int) (hb : T.inRange b)
    (he : T.inRange e) (hge : e ≤ b) (hspan : T.inRange (b - e)) :
    integer_range T b e = some ⟨T, descending b (b - e).toNat⟩ := by
  have hnlt : ¬ b < e := by omega
  unfold integer_range
  rw [if_neg hnlt, templateArg_of_inRange T _ hspan]
  simp only [Option.some_bind]
  rw [make_integer_sequence_of_nonneg T _ (by omega)]
  simp only [Option.some_bind, integer_range_impl, decide_eq_false hnlt]
  rw [if_neg (by simp), packExpand_of_forall _ (fun N => b - N)]
  · simp [descending, List.map_map, Function.comp_def]
  · intro n hn
    simp only [List.mem_map, List.mem_range] at hn
    obtain ⟨k, hk, rfl⟩ := hn
    apply templateArg_of_inRange
    have hk2 : (k : Int) < b - e := by omega
    exact ⟨by have := he.1; simp only [Int.ofNat_eq_coe]; omega,
      by have := hb.2; simp only [Int.ofNat_eq_coe]; omega⟩

/-- For a signed type, a range whose count is not representable is ill-formed. -/
theorem integer_range_signed_none (T : IntType) (b e : Int) (hs : T.isSigned = true)
    (hspan : ¬ T.inRange (if b < e then e - b else b - e)) :
    integer_range T b e = none := by
  unfold integer_range
  rw [templateArg_signed_none T _ hs hspan]
  rfl

theorem ascending_length (b : Int) (n : Nat) : (ascending b n).length = n := by
  simp [ascending]

theorem descending_length (b : Int) (n : Nat) : (descending b n).length = n := by
  simp [descending]

theorem mem_ascending (b : Int) (n : Nat) (x : Int) :
    x ∈ ascending b n ↔ b ≤ x ∧ x < b + n := by
  simp only [ascending, List.mem_map, List.mem_range]
  constructor
  · rintro ⟨k, hk, rfl⟩
    omega
  · intro h
    exact ⟨(x - b).toNat, by omega, by omega⟩

theorem mem_descending (b : Int) (n : Nat) (x : Int) :
    x ∈ descending b n ↔ b - n < x ∧ x ≤ b := by
  simp only [descending, List.mem_map, List.mem_range]
  constructor
  · rintro ⟨k, hk, rfl⟩
    omega
  · intro h
    exact ⟨(b - x).toNat, by omega, by omega⟩

theorem getElem?_ascending (b : Int) (n k : Nat) (hk : k < n) :
    (ascending b n)[k]? = some (b + k) := by
  simp [ascending, List.getElem?_range hk]

theorem getElem?_descending (b : Int) (n k : Nat) (hk : k < n) :
    (descending b n)[k]? = some (b - k) := by
  simp [descending, List.getElem?_range hk]

/-! ## The range generator: ascending ranges -/

/-- C1, as stated, fails: for the element type `signed char` and the bounds
`-128 < 127`, both of that type, the count `end - begin = 255` is not a value of
the type, the instantiation of `integer_range` is ill-formed and no sequence is
generated. -/
theorem integer_range_increasing_counterexample :
    schar_t.inRange (-128) ∧ schar_t.inRange 127 ∧ (-128 : Int) < 127 ∧
      integer_range schar_t (-128) 127 = none :=
  ⟨by decide, by decide, by decide,
    integer_range_signed_none schar_t (-128) 127 rfl (by decide)⟩

/-- C1, amended: for every element type `T` and all bounds `begin < end` of type
`T` such that, when `T` is signed, `end - begin` is at most the largest value of
`T`, the sequence generated by `integer_range<T, begin, end>` (and so by
`make_integer_range`, and by `make_index_range` for `T = std::size_t`) is exactly
`[begin, begin+1, ..., end-1]`: its length is `end - begin` and its `k`-th
element is `begin + k`. -/
theorem integer_range_increasing (T : IntType) (b e : Int) (hb : T.inRange b)
    (he : T.inRange e) (hlt : b < e) (hspan : T.isSigned = true → e - b ≤ T.maxVal) :
    integer_range T b e = some ⟨T, ascending b (e - b).toNat⟩ ∧
      make_integer_range T b e = some ⟨T, ascending b (e - b).toNat⟩ ∧
      ((ascending b (e - b).toNat).length : Int) = e - b ∧
      ∀ k : Nat, (k : Int) < e - b → (ascending b (e - b).toNat)[k]? = some (b + k) := by
  have h := integer_range_of_lt T b e hb he hlt
    (span_inRange T b e hb he (le_of_lt hlt) hspan)
  refine ⟨h, h, ?_, ?_⟩
  · rw [ascending_length]
    omega
  · intro k hk
    exact getElem?_ascending b _ k (by omega)

/-- C1, amended, at `UnrolledLoop<char, 1, 10>`: the sequence is `1, 2, ..., 9`. -/
theorem integer_range_increasing_witness :
    char_t.inRange 1 ∧ char_t.inRange 10 ∧
      (integer_range char_t 1 10 = some ⟨char_t, ascending 1 ((10 : Int) - 1).toNat⟩ ∧
        make_integer_range char_t 1 10 = some ⟨char_t, ascending 1 ((10 : Int) - 1).toNat⟩ ∧
        ((ascending 1 ((10 : Int) - 1).toNat).length : Int) = 10 - 1 ∧
        ∀ k : Nat, (k : Int) < 10 - 1 →
          (ascending 1 ((10 : Int) - 1).toNat)[k]? = some ((1 : Int) + k)) :=
  ⟨by decide, by decide,
    integer_range_increasing char_t 1 10 (by decide) (by decide) (by decide)
      (fun _ => by decide)⟩

/-! ## The range generator: descending ranges -/

/-- C2, as stated, fails: for the element type `signed char` and the bounds
`127 > -128`, both of that type, the count `begin - end = 255` is not a value of
the type, the instantiation of `integer_range` is ill-formed and no sequence is
generated. -/
theorem integer_range_decreasing_counterexample :
    schar_t.inRange 127 ∧ schar_t.inRange (-128) ∧ (127 : Int) > -128 ∧
      integer_range schar_t 127 (-128) = none :=
  ⟨by decide, by decide, by decide,
    integer_range_signed_none schar_t 127 (-128) rfl (by decide)⟩

/-- C2, amended: for every element type `T` and all bounds `begin > end` of type
`T` such that, when `T` is signed, `begin - end` is at most the largest value of
`T`, the sequence generated by `integer_range<T, begin, end>` is exactly
`[begin, begin-1, ..., end+1]`: its length is `begin - end`, its `k`-th element
is `begin - k`, and `end` is excluded. -/
theorem integer_range_decreasing (T : IntType) (b e : Int) (hb : T.inRange b)
    (he : T.inRange e) (hgt : b > e) (hspan : T.isSigned = true → b - e ≤ T.maxVal) :
    integer_range T b e = some ⟨T, descending b (b - e).toNat⟩ ∧
      make_integer_range T b e = some ⟨T, descending b (b - e).toNat⟩ ∧
      ((descending b (b - e).toNat).length : Int) = b - e ∧
      (∀ k : Nat, (k : Int) < b - e → (descending b (b - e).toNat)[k]? = some (b - k)) ∧
      e ∉ descending b (b - e).toNat := by
  have h := integer_range_of_not_lt T b e hb he (le_of_lt hgt)
    (span_inRange T e b he hb (le_of_lt hgt) hspan)
  refine ⟨h, h, ?_, ?_, ?_⟩
  · rw [descending_length]
    omega
  · intro k hk
    exact getElem?_descending b _ k (by omega)
  · rw [mem_descending]
    omega

/-- C2, amended, at `UnrolledLoop<char, 10, 1>`: the sequence is `10, 9, ..., 2`. -/
theorem integer_range_decreasing_witness :
    char_t.inRange 10 ∧ char_t.inRange 1 ∧
      (integer_range char_t 10 1 = some ⟨char_t, descending 10 ((10 : Int) - 1).toNat⟩ ∧
        make_integer_range char_t 10 1 =
          some ⟨char_t, descending 10 ((10 : Int) - 1).toNat⟩ ∧
        ((descending 10 ((10 : Int) - 1).toNat).length : Int) = 10 - 1 ∧
        (∀ k : Nat, (k : Int) < 10 - 1 →
          (descending 10 ((10 : Int) - 1).toNat)[k]? = some ((10 : Int) - k)) ∧
        (1 : Int) ∉ descending 10 ((10 : Int) - 1).toNat) :=
  ⟨by decide, by decide,
    integer_range_decreasing char_t 10 1 (by decide) (by decide) (by decide)
      (fun _ => by decide)⟩

/-! ## UnrolledLoop: invocations -/

/-- Running the instrumented callable runs the callable and appends the
constants of the sequence, in order, to the log. -/
theorem UnrolledLoop_traced {σ : Type} (s : integer_sequence)
    (f : integral_constant → σ → σ) (st : σ) (log : List integral_constant) :
    UnrolledLoop s (traced f) (st, log) =
      (UnrolledLoop s f st, log ++ s.inds.map (integral_constant.mk s.T)) := by
  obtain ⟨T, inds⟩ := s
  unfold UnrolledLoop
  induction inds generalizing st log with
  | nil => simp
  | cons i is ih =>
    simp only [List.foldl_cons, List.map_cons]
    rw [show traced f ⟨T, i⟩ (st, log) = (f ⟨T, i⟩ st, log ++ [⟨T, i⟩]) from rfl, ih]
    simp

/-- C3: for every sequence of indices `s` and every callable `f`, the base form
`UnrolledLoop(s, f)` invokes `f` exactly `length(s)` times and the `k`-th
invocation receives the `k`-th element of `s`: the log of the arguments passed
to `f` is `s`, in order, whatever the values in `s` are. -/
theorem UnrolledLoop_invocations {σ : Type} (s : integer_sequence)
    (f : integral_constant → σ → σ) (st : σ) :
    UnrolledLoop s (traced f) (st, []) =
        (UnrolledLoop s f st, s.inds.map (integral_constant.mk s.T)) ∧
      (UnrolledLoop s (traced f) (st, [])).2.length = s.inds.length ∧
      ∀ k : Nat, (UnrolledLoop s (traced f) (st, [])).2[k]? =
        (s.inds[k]?).map (integral_constant.mk s.T) := by
  have h := UnrolledLoop_traced s f st []
  rw [List.nil_append] at h
  refine ⟨h, ?_, ?_⟩
  · rw [h]
    simp
  · intro k
    rw [h]
    simp

/-- C4: for every count `N` and every callable `f`, `UnrolledLoop<N>(f)` invokes
`f` exactly `N` times, with the `std::size_t` constants `0, 1, ..., N-1` in that
order; for `N = 0` it makes no invocation and leaves the state as it is. -/
theorem UnrolledLoopB_invocations {σ : Type} (N : Nat)
    (f : integral_constant → σ → σ) (st : σ) :
    UnrolledLoopB N (traced f) (st, []) =
        (UnrolledLoopB N f st,
          (List.range N).map fun (k : Nat) => integral_constant.mk size_t (k : Int)) ∧
      (UnrolledLoopB N (traced f) (st, [])).2.length = N ∧
      UnrolledLoopB 0 (traced f) (st, []) = (st, []) := by
  have h : UnrolledLoopB N (traced f) (st, []) =
      (UnrolledLoopB N f st,
        (List.range N).map fun (k : Nat) => integral_constant.mk size_t (k : Int)) := by
    unfold UnrolledLoopB
    rw [UnrolledLoop_traced]
    simp [make_index_sequence, List.map_map, Function.comp_def]
  refine ⟨h, ?_, rfl⟩
  rw [h]
  simp

/-! ## SubmitComputeUnits: submissions -/

/-- The queue after `SubmitComputeUnits<N, Name>(q, f)`: the compute units
`0, ..., N-1` after what was in the queue. -/
theorem SubmitComputeUnits_eq {τ σ : Type} (N : Nat) (Name : τ)
    (f : integral_constant → σ → σ) (q : queue τ σ) :
    SubmitComputeUnits N Name f q = q ++ (List.range N).map (computeUnit Name f) := by
  unfold SubmitComputeUnits UnrolledLoopB UnrolledLoop make_index_sequence
  simp only [List.foldl_map]
  induction N with
  | zero => simp
  | succ n ih =>
    rw [List.range_succ, List.foldl_append, ih]
    simp [single_task, computeUnit]

theorem SubmitComputeUnits_getElem? {τ σ : Type} (N : Nat) (Name : τ)
    (f : integral_constant → σ → σ) (q : queue τ σ) (i : Nat) (hi : i < N) :
    (SubmitComputeUnits N Name f q)[q.length + i]? = some (computeUnit Name f i) := by
  rw [SubmitComputeUnits_eq, List.getElem?_append_right (Nat.le_add_right _ _)]
  simp [List.getElem?_range hi]

/-- C5: for every count `N`, every callable `f` and every name template `Name`,
`SubmitComputeUnits<N, Name>(q, f)` makes exactly `N` submissions to the queue
`q`, after what the queue held, in the order of the indices `0, 1, ..., N-1`; the
`i`-th of them carries the kernel name `Name<i>`, and its task, when it is run,
invokes `f` exactly once, with the `std::size_t` constant `i`. -/
theorem SubmitComputeUnits_submissions {τ σ : Type} (N : Nat) (Name : τ)
    (f : integral_constant → σ → σ) (q : queue τ (σ × List integral_constant)) :
    (SubmitComputeUnits N Name (traced f) q).length = q.length + N ∧
      (SubmitComputeUnits N Name (traced f) q).take q.length = q ∧
      ((SubmitComputeUnits N Name (traced f) q).drop q.length).map (fun sub => sub.name) =
        (List.range N).map (fun i => KernelName.mk Name i) ∧
      ∀ i : Nat, i < N → ∃ sub : Submission τ (σ × List integral_constant),
        (SubmitComputeUnits N Name (traced f) q)[q.length + i]? = some sub ∧
        sub.name = KernelName.mk Name i ∧
        ∀ (st : σ) (log : List integral_constant),
          sub.task (st, log) = (f ⟨size_t, (i : Int)⟩ st, log ++ [⟨size_t, (i : Int)⟩]) := by
  refine ⟨?_, ?_, ?_, ?_⟩
  · rw [SubmitComputeUnits_eq]
    simp
  · rw [SubmitComputeUnits_eq]
    simp
  · rw [SubmitComputeUnits_eq]
    simp [List.map_map, Function.comp_def, computeUnit]
  · intro i hi
    exact ⟨computeUnit Name (traced f) i,
      SubmitComputeUnits_getElem? N Name (traced f) q i hi, rfl, fun _ _ => rfl⟩

/-- C6: for every count `N` and all positions `i ≠ j` below `N`, the kernel name
of the `i`-th compute unit submitted by `SubmitComputeUnits<N, Name>` differs
from the kernel name of the `j`-th. -/
theorem SubmitComputeUnits_names_distinct {τ σ : Type} (N : Nat) (Name : τ)
    (f : integral_constant → σ → σ) (q : queue τ σ) (i j : Nat)
    (hi : i < N) (hj : j < N) (hij : i ≠ j) :
    ∃ a b : Submission τ σ,
      (SubmitComputeUnits N Name f q)[q.length + i]? = some a ∧
      (SubmitComputeUnits N Name f q)[q.length + j]? = some b ∧
      a.name ≠ b.name := by
  refine ⟨computeUnit Name f i, computeUnit Name f j,
    SubmitComputeUnits_getElem? N Name f q i hi,
    SubmitComputeUnits_getElem? N Name f q j hj, ?_⟩
  intro h
  exact hij (congrArg KernelName.ID h)

/-- C6 at `SubmitComputeUnits<3, Name>` on an empty queue: the compute units at
positions 0 and 2 have different kernel names. -/
theorem SubmitComputeUnits_names_distinct_witness :
    ∃ a b : Submission String (List Int),
      (SubmitComputeUnits 3 "Name" (fun i st => st ++ [i.value]) [])[
          ([] : queue String (List Int)).length + 0]? = some a ∧
      (SubmitComputeUnits 3 "Name" (fun i st => st ++ [i.value]) [])[
          ([] : queue String (List Int)).length + 2]? = some b ∧
      a.name ≠ b.name :=
  SubmitComputeUnits_names_distinct 3 "Name" (fun i st => st ++ [i.value]) [] 0 2
    (by decide) (by decide) (by decide)

/-! ## The convenience forms -/

/-- For a count `N` of type `T`, the range `[0, N)` is the sequence
`std::make_integer_sequence<T, N>`. -/
theorem integer_range_zero_count (T : IntType) (N : Nat) (hN : (N : Int) ≤ T.maxVal) :
    integer_range T 0 N = make_integer_sequence T N := by
  have hr : T.inRange (N : Int) := ⟨by have := T.minVal_nonpos; omega, hN⟩
  rw [make_integer_sequence_of_nonneg T N (by omega)]
  rcases Nat.eq_zero_or_pos N with h0 | hpos
  · subst h0
    rw [integer_range_of_not_lt T 0 ((0 : Nat) : Int) T.inRange_zero hr (by simp)
      (by simpa using T.inRange_zero)]
    simp [descending]
  · rw [integer_range_of_lt T 0 N T.inRange_zero hr (by omega) (by simpa using hr)]
    simp [ascending, List.map_map, Function.comp_def]

/-- C7: each of the four convenience forms of `UnrolledLoop` produces the same
final state and the same log of invocations as the base form applied to the
equivalent explicit range: `UnrolledLoop<T, n>(f)` and the range
`integer_range<T, 0, n>` for every count `n` of type `T`; `UnrolledLoop<m>(f)`
and `integer_range<std::size_t, 0, m>` for every count `m` of type
`std::size_t`; `UnrolledLoop<T, S, E>(f)` and `integer_range<T, S, E>`;
`UnrolledLoop<S, E>(f)` and `integer_range<std::size_t, S, E>`. -/
theorem UnrolledLoop_convenience_forms {σ : Type} (T : IntType) (n m : Nat) (S E : Int)
    (Sn En : Nat) (f : integral_constant → σ → σ) (st : σ) (log : List integral_constant)
    (hn : (n : Int) ≤ T.maxVal) (hm : (m : Int) ≤ size_t.maxVal) :
    UnrolledLoopA T n (traced f) (st, log) =
        (integer_range T 0 n).map (fun s => UnrolledLoop s (traced f) (st, log)) ∧
      some (UnrolledLoopB m (traced f) (st, log)) =
        (integer_range size_t 0 m).map (fun s => UnrolledLoop s (traced f) (st, log)) ∧
      UnrolledLoopC T S E (traced f) (st, log) =
        (integer_range T S E).map (fun s => UnrolledLoop s (traced f) (st, log)) ∧
      UnrolledLoopD Sn En (traced f) (st, log) =
        (integer_range size_t Sn En).map (fun s => UnrolledLoop s (traced f) (st, log)) := by
  refine ⟨?_, ?_, rfl, rfl⟩
  · rw [integer_range_zero_count T n hn]
    rfl
  · rw [integer_range_zero_count size_t m hm, make_integer_sequence_of_nonneg size_t m (by omega)]
    simp [UnrolledLoopB, make_index_sequence]

/-- C7 at `UnrolledLoop<int, 10>` and `UnrolledLoop<10>`, with the ranges of the
usage examples for the other two forms. -/
theorem UnrolledLoop_convenience_forms_witness :
    ((10 : Nat) : Int) ≤ int_t.maxVal ∧ ((10 : Nat) : Int) ≤ size_t.maxVal ∧
      (UnrolledLoopA int_t (10 : Nat) (traced (fun i (c : Int) => c + i.value)) (0, []) =
          (integer_range int_t 0 (10 : Nat)).map
            (fun s => UnrolledLoop s (traced (fun i (c : Int) => c + i.value)) (0, [])) ∧
        some (UnrolledLoopB 10 (traced (fun i (c : Int) => c + i.value)) (0, [])) =
          (integer_range size_t 0 (10 : Nat)).map
            (fun s => UnrolledLoop s (traced (fun i (c : Int) => c + i.value)) (0, [])) ∧
        UnrolledLoopC int_t 10 1 (traced (fun i (c : Int) => c + i.value)) (0, []) =
          (integer_range int_t 10 1).map
            (fun s => UnrolledLoop s (traced (fun i (c : Int) => c + i.value)) (0, [])) ∧
        UnrolledLoopD 1 10 (traced (fun i (c : Int) => c + i.value)) (0, []) =
          (integer_range size_t (1 : Nat) (10 : Nat)).map
            (fun s => UnrolledLoop s (traced (fun i (c : Int) => c + i.value)) (0, []))) :=
  ⟨by decide, by decide,
    UnrolledLoop_convenience_forms int_t 10 10 10 1 1 10
      (fun i (c : Int) => c + i.value) 0 [] (by decide) (by decide)⟩

/-! ## Equal bounds -/

theorem integer_range_self (T : IntType) (b : Int) :
    integer_range T b b = some ⟨T, []⟩ := by
  unfold integer_range
  rw [if_neg (lt_irrefl b), sub_self, templateArg_of_inRange T 0 T.inRange_zero]
  simp [make_integer_sequence, integer_range_impl, packExpand]

/-- C8: for every element type `T` and every bound `b`, `integer_range<T, b, b>`
is the empty sequence, and `UnrolledLoop<T, b, b>(f)` and the `std::size_t` form
`UnrolledLoop<b, b>(f)` are well-formed, make no invocation of `f` and leave the
state as it is. -/
theorem integer_range_equal_bounds {σ : Type} (T : IntType) (b : Int) (bn : Nat)
    (f : integral_constant → σ → σ) (st : σ) :
    integer_range T b b = some ⟨T, []⟩ ∧
      UnrolledLoopC T b b (traced f) (st, []) = some (st, []) ∧
      UnrolledLoopD bn bn (traced f) (st, []) = some (st, []) := by
  refine ⟨integer_range_self T b, ?_, ?_⟩
  · simp [UnrolledLoopC, make_integer_range, integer_range_self, UnrolledLoop]
  · simp [UnrolledLoopD, make_index_range, integer_range_self, UnrolledLoop]

/-! ## What a generated range contains -/

/-- A generated range is the ascending list when `begin < end` and the descending
list otherwise. -/
theorem integer_range_some (T : IntType) (b e : Int) (s : integer_sequence)
    (hb : T.inRange b) (he : T.inRange e) (h : integer_range T b e = some s) :
    s = ⟨T, if b < e then ascending b (e - b).toNat else descending b (b - e).toNat⟩ := by
  by_cases hfit : T.inRange (if b < e then e - b else b - e)
  · by_cases hlt : b < e
    · rw [if_pos hlt] at hfit
      rw [integer_range_of_lt T b e hb he hlt hfit] at h
      rw [if_pos hlt]
      exact (Option.some.inj h).symm
    · rw [if_neg hlt] at hfit
      rw [integer_range_of_not_lt T b e hb he (by omega) hfit] at h
      rw [if_neg hlt]
      exact (Option.some.inj h).symm
  · cases hs : T.isSigned
    · exfalso
      apply hfit
      by_cases hlt : b < e
      · rw [if_pos hlt]
        exact span_inRange_of_unsigned T hs b e hb he (le_of_lt hlt)
      · rw [if_neg hlt]
        exact span_inRange_of_unsigned T hs e b he hb (by omega)
    · rw [integer_range_signed_none T b e hs hfit] at h
      exact absurd h (by simp)

/-- C9, as stated, fails: for `int` and the equal bounds `begin = end = 5` the
generated sequence is empty, so it does not contain `begin`. -/
theorem integer_range_begin_end_counterexample :
    ∃ s : integer_sequence, integer_range int_t 5 5 = some s ∧ (5 : Int) ∉ s.inds :=
  ⟨⟨int_t, []⟩, integer_range_self int_t 5, by simp⟩

/-- C9, amended: for every range `(begin, end)` of any element type, a sequence
generated by `integer_range` contains `begin` whenever `begin ≠ end`, and never
contains `end`. -/
theorem integer_range_begin_end (T : IntType) (b e : Int) (s : integer_sequence)
    (hb : T.inRange b) (he : T.inRange e) (h : integer_range T b e = some s) :
    (b ≠ e → b ∈ s.inds) ∧ e ∉ s.inds := by
  rw [integer_range_some T b e s hb he h]
  by_cases hlt : b < e
  · simp only [if_pos hlt, mem_ascending]
    constructor
    · intro _
      omega
    · omega
  · simp only [if_neg hlt, mem_descending]
    constructor
    · intro hne
      omega
    · omega

/-- C9, amended, at `integer_range<char, 10, 1>`: the sequence `10, 9, ..., 2`
contains 10 and does not contain 1. -/
theorem integer_range_begin_end_witness :
    char_t.inRange 10 ∧ char_t.inRange 1 ∧
      integer_range char_t 10 1 = some ⟨char_t, [10, 9, 8, 7, 6, 5, 4, 3, 2]⟩ ∧
      (((10 : Int) ≠ 1 → (10 : Int) ∈ [10, 9, 8, 7, 6, 5, 4, 3, (2 : Int)]) ∧
        (1 : Int) ∉ [10, 9, 8, 7, 6, 5, 4, 3, (2 : Int)]) :=
  ⟨by decide, by decide, by decide,
    integer_range_begin_end char_t 10 1 ⟨char_t, [10, 9, 8, 7, 6, 5, 4, 3, 2]⟩
      (by decide) (by decide) (by decide)⟩

/-! ## Exactness of the arithmetic -/

/-- C10, as stated, fails: for `int` and the bounds `begin = -2147483648`,
`end = 2147483647`, both of type `int`, the count `end - begin = 4294967295`
overflows `int`: it is not computed as a value of the type, and no sequence is
generated. -/
theorem integer_range_exact_counterexample :
    int_t.inRange (-2147483648) ∧ int_t.inRange 2147483647 ∧
      templateArg int_t
        (if (-2147483648 : Int) < 2147483647 then 2147483647 - (-2147483648)
          else (-2147483648) - 2147483647) = none ∧
      integer_range int_t (-2147483648) 2147483647 = none :=
  ⟨by decide, by decide,
    templateArg_signed_none int_t _ rfl (by decide),
    integer_range_signed_none int_t (-2147483648) 2147483647 rfl (by decide)⟩

/-- C10, amended: for every element type `T` (signed or unsigned, of any width)
and all bounds `begin`, `end` of type `T`: when `T` is unsigned, or
`|end - begin|` is at most the largest value of `T`, the count computed as a
template argument of type `T` is the mathematical `|end - begin|`, the sequence is
generated with that many elements, and its `k`-th element, computed as
`k + begin` or `begin - k`, is the mathematical value and a value of `T`;
otherwise (a signed `T` and a larger distance) the instantiation is ill-formed
and no sequence is generated. -/
theorem integer_range_exact (T : IntType) (b e : Int) (hb : T.inRange b)
    (he : T.inRange e) :
    ((T.isSigned = true → |e - b| ≤ T.maxVal) →
      templateArg T (if b < e then e - b else b - e) = some |e - b| ∧
      ∃ s : integer_sequence, integer_range T b e = some s ∧
        (s.inds.length : Int) = |e - b| ∧
        ∀ k : Nat, (k : Int) < |e - b| →
          s.inds[k]? = some (if b < e then b + k else b - k) ∧
          templateArg T (if b < e then (k : Int) + b else b - k) =
            some (if b < e then b + k else b - k) ∧
          T.inRange (if b < e then b + k else b - k)) ∧
    (¬ (T.isSigned = true → |e - b| ≤ T.maxVal) → integer_range T b e = none) := by
  constructor
  · intro hspan
    by_cases hlt : b < e
    · have habs : |e - b| = e - b := abs_of_pos (by omega)
      rw [habs] at hspan ⊢
      have hfit := span_inRange T b e hb he (le_of_lt hlt) hspan
      simp only [if_pos hlt]
      refine ⟨templateArg_of_inRange T _ hfit, _, integer_range_of_lt T b e hb he hlt hfit,
        ?_, ?_⟩
      · rw [ascending_length]
        omega
      · intro k hk
        have hr : T.inRange (b + k) :=
          ⟨by have := hb.1; omega, by have := he.2; omega⟩
        refine ⟨getElem?_ascending b _ k (by omega), ?_, hr⟩
        rw [add_comm]
        exact templateArg_of_inRange T _ hr
    · have habs : |e - b| = b - e := by
        rw [abs_of_nonpos (by omega)]
        omega
      rw [habs] at hspan ⊢
      have hfit := span_inRange T e b he hb (by omega) hspan
      simp only [if_neg hlt]
      refine ⟨templateArg_of_inRange T _ hfit, _,
        integer_range_of_not_lt T b e hb he (by omega) hfit, ?_, ?_⟩
      · rw [descending_length]
        omega
      · intro k hk
        have hr : T.inRange (b - k) :=
          ⟨by have := he.1; omega, by have := hb.2; omega⟩
        exact ⟨getElem?_descending b _ k (by omega), templateArg_of_inRange T _ hr, hr⟩
  · intro hspan
    rw [Classical.not_imp] at hspan
    obtain ⟨hs, hbig⟩ := hspan
    apply integer_range_signed_none T b e hs
    intro hfit
    apply hbig
    by_cases hlt : b < e
    · rw [if_pos hlt] at hfit
      rw [abs_of_pos (by omega)]
      exact hfit.2
    · rw [if_neg hlt] at hfit
      rw [abs_of_nonpos (by omega)]
      have := hfit.2
      omega

/-- C10, amended, at `integer_range<unsigned char, 255, 0>` and at
`integer_range<signed char, -128, 127>`: the first has 255 elements, the last of
which is 1; the second is ill-formed. -/
theorem integer_range_exact_witness :
    (uchar_t.inRange 255 ∧ uchar_t.inRange 0 ∧
      ∃ s : integer_sequence, integer_range uchar_t 255 0 = some s ∧
        (s.inds.length : Int) = 255 ∧ s.inds[254]? = some 1) ∧
    (schar_t.inRange (-128) ∧ schar_t.inRange 127 ∧
      integer_range schar_t (-128) 127 = none) := by
  refine ⟨⟨by decide, by decide, ?_⟩, by decide, by decide, ?_⟩
  · obtain ⟨_, s, hs, hlen, hk⟩ :=
      (integer_range_exact uchar_t 255 0 (by decide) (by decide)).1
        (fun h => absurd h (by decide))
    refine ⟨s, hs, by simpa using hlen, ?_⟩
    have h := (hk 254 (by norm_num)).1
    simpa using h
  · exact (integer_range_exact schar_t (-128) 127 (by decide) (by decide)).2
      (by rw [Classical.not_imp]; exact ⟨rfl, by norm_num [schar_t, IntType.maxVal]⟩)

/-! ## The usage examples of case C -/

/-- The log of a range form: the constants of the generated sequence. -/
theorem UnrolledLoopC_traced {σ : Type} (T : IntType) (b e : Int)
    (f : integral_constant → σ → σ) (st : σ) :
    UnrolledLoopC T b e (traced f) (st, []) =
      (integer_range T b e).map fun s =>
        (UnrolledLoop s f st, s.inds.map (integral_constant.mk s.T)) := by
  unfold UnrolledLoopC make_integer_range
  cases integer_range T b e with
  | none => rfl
  | some s =>
    simp only [Option.map_some']
    rw [UnrolledLoop_traced]
    simp

theorem integer_range_char_10_1 :
    integer_range char_t 10 1 = some ⟨char_t, [10, 9, 8, 7, 6, 5, 4, 3, 2]⟩ := by
  decide

theorem integer_range_char_1_10 :
    integer_range char_t 1 10 = some ⟨char_t, [1, 2, 3, 4, 5, 6, 7, 8, 9]⟩ := by
  decide

/-- C11, as stated, fails: `UnrolledLoop<char, 10, 1>(f)` invokes `f` with
`i = 10, 9, ..., 2`, and that is 9 calls, not 8. -/
theorem UnrolledLoopC_char_counterexample :
    ∃ r : Unit × List integral_constant,
      UnrolledLoopC char_t 10 1 (traced (fun _ (u : Unit) => u)) ((), []) = some r ∧
      r.2.map (fun i => i.value) = [10, 9, 8, 7, 6, 5, 4, 3, 2] ∧
      r.2.length = 9 ∧ r.2.length ≠ 8 := by
  refine ⟨((), ([10, 9, 8, 7, 6, 5, 4, 3, 2] : List Int).map (integral_constant.mk char_t)),
    ?_, ?_⟩
  · rw [UnrolledLoopC_traced, integer_range_char_10_1]
    rfl
  · decide

/-- C11, amended: `UnrolledLoop<char, 10, 1>(f)` invokes `f` with the `char`
constants `10, 9, ..., 2` in that order, exactly 9 calls, and
`UnrolledLoop<char, 1, 10>(f)` invokes `f` with `1, 2, ..., 9` in that order,
exactly 9 calls. -/
theorem UnrolledLoopC_char {σ : Type} (f : integral_constant → σ → σ) (st : σ) :
    (∃ r : σ × List integral_constant,
      UnrolledLoopC char_t 10 1 (traced f) (st, []) = some r ∧
      r.2 = ([10, 9, 8, 7, 6, 5, 4, 3, 2] : List Int).map (integral_constant.mk char_t) ∧
      r.2.length = 9) ∧
    (∃ r : σ × List integral_constant,
      UnrolledLoopC char_t 1 10 (traced f) (st, []) = some r ∧
      r.2 = ([1, 2, 3, 4, 5, 6, 7, 8, 9] : List Int).map (integral_constant.mk char_t) ∧
      r.2.length = 9) := by
  constructor
  · refine ⟨(UnrolledLoop ⟨char_t, [10, 9, 8, 7, 6, 5, 4, 3, 2]⟩ f st,
      ([10, 9, 8, 7, 6, 5, 4, 3, 2] : List Int).map (integral_constant.mk char_t)),
      ?_, rfl, rfl⟩
    rw [UnrolledLoopC_traced, integer_range_char_10_1]
    rfl
  · refine ⟨(UnrolledLoop ⟨char_t, [1, 2, 3, 4, 5, 6, 7, 8, 9]⟩ f st,
      ([1, 2, 3, 4, 5, 6, 7, 8, 9] : List Int).map (integral_constant.mk char_t)),
      ?_, rfl, rfl⟩
    rw [UnrolledLoopC_traced, integer_range_char_1_10]
    rfl

/-! ## Distinct indices -/

theorem ascending_nodup (b : Int) (n : Nat) : (ascending b n).Nodup := by
  unfold ascending
  apply List.Nodup.map _ (List.nodup_range n)
  intro j k h
  simp only at h
  omega

theorem descending_nodup (b : Int) (n : Nat) : (descending b n).Nodup := by
  unfold descending
  apply List.Nodup.map _ (List.nodup_range n)
  intro j k h
  simp only at h
  omega

theorem integral_constant_mk_injective (T : IntType) :
    Function.Injective (integral_constant.mk T) := by
  intro v w h
  exact congrArg integral_constant.value h

theorem integer_range_nodup (T : IntType) (b e : Int) (s : integer_sequence)
    (hb : T.inRange b) (he : T.inRange e) (h : integer_range T b e = some s) :
    s.inds.Nodup := by
  rw [integer_range_some T b e s hb he h]
  by_cases hlt : b < e
  · simp only [if_pos hlt]
    exact ascending_nodup _ _
  · simp only [if_neg hlt]
    exact descending_nodup _ _

theorem UnrolledLoopC_log_nodup {σ : Type} (T : IntType) (b e : Int)
    (hb : T.inRange b) (he : T.inRange e) (f : integral_constant → σ → σ) (st : σ)
    (r : σ × List integral_constant)
    (h : UnrolledLoopC T b e (traced f) (st, []) = some r) : r.2.Nodup := by
  rw [UnrolledLoopC_traced] at h
  cases hs : integer_range T b e with
  | none => rw [hs] at h; exact absurd h (by simp)
  | some s =>
    rw [hs] at h
    have hr := Option.some.inj h
    rw [← hr]
    exact List.Nodup.map (integral_constant_mk_injective s.T)
      (integer_range_nodup T b e s hb he hs)

/-- C12: for every element type `T` and all bounds `begin`, `end` of type `T`,
the elements of a sequence generated by `integer_range<T, begin, end>` are
pairwise distinct, and so are the constants received by the invocations that
`UnrolledLoop<T, begin, end>(f)` makes; the same holds for the `std::size_t` form
`UnrolledLoop<begin, end>(f)`. -/
theorem integer_range_distinct {σ : Type} (T : IntType) (b e : Int)
    (hb : T.inRange b) (he : T.inRange e) (f : integral_constant → σ → σ) (st : σ) :
    (∀ s : integer_sequence, integer_range T b e = some s → s.inds.Nodup) ∧
    (∀ r : σ × List integral_constant,
      UnrolledLoopC T b e (traced f) (st, []) = some r → r.2.Nodup) ∧
    (∀ bn en : Nat, size_t.inRange bn → size_t.inRange en →
      ∀ r : σ × List integral_constant,
        UnrolledLoopD bn en (traced f) (st, []) = some r → r.2.Nodup) :=
  ⟨fun s h => integer_range_nodup T b e s hb he h,
    fun r h => UnrolledLoopC_log_nodup T b e hb he f st r h,
    fun bn en hbn hen r h => UnrolledLoopC_log_nodup size_t bn en hbn hen f st r h⟩

/-- C12 at `UnrolledLoop<char, 10, 1>`: the sequence `10, 9, ..., 2` is generated
and has no repeated element. -/
theorem integer_range_distinct_witness :
    char_t.inRange 10 ∧ char_t.inRange 1 ∧
      integer_range char_t 10 1 = some ⟨char_t, [10, 9, 8, 7, 6, 5, 4, 3, 2]⟩ ∧
      ([10, 9, 8, 7, 6, 5, 4, 3, 2] : List Int).Nodup :=
  ⟨by decide, by decide, integer_range_char_10_1,
    (integer_range_distinct char_t 10 1 (by decide) (by decide)
      (fun _ (u : Unit) => u) ()).1 ⟨char_t, [10, 9, 8, 7, 6, 5, 4, 3, 2]⟩
      integer_range_char_10_1⟩

/-! ## Membership -/

/-- The count of a range is representable when the type is unsigned, or when the
distance between the bounds is at most the largest value of the type. -/
theorem count_inRange (T : IntType) (b e : Int) (hb : T.inRange b) (he : T.inRange e)
    (hspan : T.isSigned = true → |e - b| ≤ T.maxVal) :
    T.inRange (if b < e then e - b else b - e) := by
  by_cases hlt : b < e
  · rw [if_pos hlt]
    rw [abs_of_pos (by omega)] at hspan
    exact span_inRange T b e hb he (le_of_lt hlt) hspan
  · rw [if_neg hlt]
    rw [abs_of_nonpos (by omega)] at hspan
    exact span_inRange T e b he hb (by omega) (fun hs => by have := hspan hs; omega)

/-- A range whose count is representable is generated, as `rangeList`. -/
theorem integer_range_of_fit (T : IntType) (b e : Int) (hb : T.inRange b)
    (he : T.inRange e) (hfit : T.inRange (if b < e then e - b else b - e)) :
    integer_range T b e = some ⟨T, rangeList b e⟩ := by
  unfold rangeList
  by_cases hlt : b < e
  · rw [if_pos hlt] at hfit ⊢
    exact integer_range_of_lt T b e hb he hlt hfit
  · rw [if_neg hlt] at hfit ⊢
    exact integer_range_of_not_lt T b e hb he (by omega) hfit

theorem mem_rangeList (b e x : Int) : x ∈ rangeList b e ↔ inHalfOpen b e x := by
  unfold rangeList inHalfOpen
  by_cases hlt : b < e
  · rw [if_pos hlt, mem_ascending]
    omega
  · rw [if_neg hlt, mem_descending]
    omega

/-- C14, as stated, fails: for `signed char` and the bounds `-100 < 100` the value
`0` satisfies `begin <= x < end`, but the count 200 is not a value of the type,
`integer_range<signed char, -100, 100>` is ill-formed and has no element. -/
theorem integer_range_mem_counterexample :
    schar_t.inRange (-100) ∧ schar_t.inRange 100 ∧ inHalfOpen (-100) 100 0 ∧
      ¬ ∃ s : integer_sequence,
        integer_range schar_t (-100) 100 = some s ∧ (0 : Int) ∈ s.inds := by
  refine ⟨by decide, by decide, Or.inl (by decide), ?_⟩
  rw [integer_range_signed_none schar_t (-100) 100 rfl (by decide)]
  simp

/-- C14, amended: for every element type `T`, all bounds `begin`, `end` of type
`T` and every value `x`: `x` is an element of a sequence generated by
`integer_range<T, begin, end>` if and only if (`begin < end` and
`begin <= x < end`) or (`begin > end` and `end < x <= begin`), and every generated
element lies between `min(begin, end)` and `max(begin, end)`; the sequence is
generated whenever `T` is unsigned or `|end - begin|` is at most the largest
value of `T`. -/
theorem integer_range_mem (T : IntType) (b e x : Int) (hb : T.inRange b)
    (he : T.inRange e) :
    (∀ s : integer_sequence, integer_range T b e = some s →
      (x ∈ s.inds ↔ (b < e ∧ b ≤ x ∧ x < e) ∨ (b > e ∧ e < x ∧ x ≤ b)) ∧
      (x ∈ s.inds → min b e ≤ x ∧ x ≤ max b e)) ∧
    ((T.isSigned = true → |e - b| ≤ T.maxVal) →
      ∃ s : integer_sequence, integer_range T b e = some s ∧
        (x ∈ s.inds ↔ (b < e ∧ b ≤ x ∧ x < e) ∨ (b > e ∧ e < x ∧ x ≤ b))) := by
  have key : ∀ s : integer_sequence, integer_range T b e = some s →
      (x ∈ s.inds ↔ (b < e ∧ b ≤ x ∧ x < e) ∨ (b > e ∧ e < x ∧ x ≤ b)) := by
    intro s h
    rw [integer_range_some T b e s hb he h]
    exact mem_rangeList b e x
  refine ⟨fun s h => ⟨key s h, fun hx => ?_⟩, fun hspan => ?_⟩
  · have hc := (key s h).1 hx
    rcases hc with ⟨h1, h2, h3⟩ | ⟨h1, h2, h3⟩
    · rw [min_eq_left (le_of_lt h1), max_eq_right (le_of_lt h1)]
      exact ⟨h2, le_of_lt h3⟩
    · rw [min_eq_right (le_of_lt h1), max_eq_left (le_of_lt h1)]
      exact ⟨le_of_lt h2, h3⟩
  · have h := integer_range_of_fit T b e hb he (count_inRange T b e hb he hspan)
    exact ⟨_, h, key _ h⟩

/-- C14, amended, at `integer_range<char, 10, 1>` and `x = 2`: the sequence is
generated and 2, which satisfies `end < x <= begin`, is one of its elements. -/
theorem integer_range_mem_witness :
    char_t.inRange 10 ∧ char_t.inRange 1 ∧
      ∃ s : integer_sequence, integer_range char_t 10 1 = some s ∧
        ((2 : Int) ∈ s.inds ↔
          ((10 : Int) < 1 ∧ (10 : Int) ≤ 2 ∧ (2 : Int) < 1) ∨
            ((10 : Int) > 1 ∧ (1 : Int) < 2 ∧ (2 : Int) ≤ 10)) :=
  ⟨by decide, by decide,
    (integer_range_mem char_t 10 1 2 (by decide) (by decide)).2 (fun _ => by decide)⟩

/-! ## Reversal -/

theorem descending_reverse (b : Int) (n : Nat) :
    (descending b n).reverse = ascending (b - n + 1) n := by
  apply List.ext_getElem?
  intro k
  by_cases hk : k < n
  · rw [List.getElem?_reverse (by rw [descending_length]; exact hk), descending_length,
      getElem?_descending b n (n - 1 - k) (by omega), getElem?_ascending _ n k hk]
    congr 1
    omega
  · rw [List.getElem?_eq_none (by rw [List.length_reverse, descending_length]; omega),
      List.getElem?_eq_none (by rw [ascending_length]; omega)]

/-- C15: for all bounds `begin > end` of type `T` with `begin + 1` representable
in `T`, the descending sequence `integer_range<T, begin, end>` is the reverse of
the ascending sequence `integer_range<T, end+1, begin+1>` (the two are generated
for the same bounds and are ill-formed for the same bounds), and
`UnrolledLoop<T, begin, end>(f)` makes the invocations of
`UnrolledLoop<T, end+1, begin+1>(f)` in the opposite order. -/
theorem integer_range_reverse {σ : Type} (T : IntType) (b e : Int)
    (hb : T.inRange b) (he : T.inRange e) (hgt : b > e) (hb1 : T.inRange (b + 1))
    (f : integral_constant → σ → σ) (st : σ) :
    (integer_range T b e).map (fun s => (s.T, s.inds.reverse)) =
        (integer_range T (e + 1) (b + 1)).map (fun s => (s.T, s.inds)) ∧
      (UnrolledLoopC T b e (traced f) (st, [])).map (fun r => r.2.reverse) =
        (UnrolledLoopC T (e + 1) (b + 1) (traced f) (st, [])).map (fun r => r.2) := by
  have he1 : T.inRange (e + 1) := ⟨by have := he.1; omega, by have := hb.2; omega⟩
  have hsub : (b + 1) - (e + 1) = b - e := by ring
  by_cases hfit : T.inRange (b - e)
  · have h1 := integer_range_of_not_lt T b e hb he (le_of_lt hgt) hfit
    have h2 := integer_range_of_lt T (e + 1) (b + 1) he1 hb1 (by omega)
      (by rw [hsub]; exact hfit)
    rw [hsub] at h2
    have hrev : (descending b (b - e).toNat).reverse = ascending (e + 1) (b - e).toNat := by
      rw [descending_reverse]
      congr 1
      omega
    constructor
    · rw [h1, h2]
      simp [hrev]
    · rw [UnrolledLoopC_traced, UnrolledLoopC_traced, h1, h2]
      simp only [Option.map_some']
      rw [← hrev, List.map_reverse]
  · have hs : T.isSigned = true := by
      cases hs : T.isSigned
      · exact absurd (span_inRange_of_unsigned T hs e b he hb (le_of_lt hgt)) hfit
      · rfl
    have h1 : integer_range T b e = none :=
      integer_range_signed_none T b e hs (by rw [if_neg (by omega)]; exact hfit)
    have h2 : integer_range T (e + 1) (b + 1) = none :=
      integer_range_signed_none T (e + 1) (b + 1) hs
        (by rw [if_pos (by omega), hsub]; exact hfit)
    constructor
    · rw [h1, h2]
      rfl
    · rw [UnrolledLoopC_traced, UnrolledLoopC_traced, h1, h2]
      rfl

/-- C15 at `integer_range<char, 10, 1>` and `integer_range<char, 2, 11>`. -/
theorem integer_range_reverse_witness :
    char_t.inRange 10 ∧ char_t.inRange 1 ∧ (10 : Int) > 1 ∧ char_t.inRange (10 + 1) ∧
      ((integer_range char_t 10 1).map (fun s => (s.T, s.inds.reverse)) =
          (integer_range char_t (1 + 1) (10 + 1)).map (fun s => (s.T, s.inds)) ∧
        (UnrolledLoopC char_t 10 1 (traced (fun i (c : Int) => 2 * c + i.value))
            (0, [])).map (fun r => r.2.reverse) =
          (UnrolledLoopC char_t (1 + 1) (10 + 1)
            (traced (fun i (c : Int) => 2 * c + i.value)) (0, [])).map (fun r => r.2)) :=
  ⟨by decide, by decide, by decide, by decide,
    integer_range_reverse char_t 10 1 (by decide) (by decide) (by decide) (by decide)
      (fun i (c : Int) => 2 * c + i.value) 0⟩

/-! ## Splitting a range -/

theorem ascending_add (a : Int) (n₁ n₂ : Nat) :
    ascending a (n₁ + n₂) = ascending a n₁ ++ ascending (a + n₁) n₂ := by
  unfold ascending
  rw [List.range_add, List.map_append, List.map_map]
  congr 1
  apply List.map_congr_left
  intro k _
  simp only [Function.comp_apply, Nat.cast_add]
  omega

theorem descending_add (a : Int) (n₁ n₂ : Nat) :
    descending a (n₁ + n₂) = descending a n₁ ++ descending (a - n₁) n₂ := by
  unfold descending
  rw [List.range_add, List.map_append, List.map_map]
  congr 1
  apply List.map_congr_left
  intro k _
  simp only [Function.comp_apply, Nat.cast_add]
  omega

theorem rangeList_of_le (a c : Int) (h : a ≤ c) :
    rangeList a c = ascending a (c - a).toNat := by
  unfold rangeList
  by_cases hlt : a < c
  · rw [if_pos hlt]
  · have hac : a = c := by omega
    subst hac
    simp [ascending, descending]

theorem rangeList_of_ge (a c : Int) (h : c ≤ a) :
    rangeList a c = descending a (a - c).toNat := by
  unfold rangeList
  rw [if_neg (by omega)]

/-- Between ordered bounds the list from `a` towards `c` is the list from `a`
towards `m` followed by the list from `m` towards `c`. -/
theorem rangeList_append (a m c : Int) (hord : (a ≤ m ∧ m ≤ c) ∨ (a ≥ m ∧ m ≥ c)) :
    rangeList a c = rangeList a m ++ rangeList m c := by
  rcases hord with ⟨h1, h2⟩ | ⟨h1, h2⟩
  · rw [rangeList_of_le a c (by omega), rangeList_of_le a m h1, rangeList_of_le m c h2]
    have hn : (c - a).toNat = (m - a).toNat + (c - m).toNat := by omega
    have hm : a + ((m - a).toNat : Int) = m := by omega
    rw [hn, ascending_add, hm]
  · rw [rangeList_of_ge a c (by omega), rangeList_of_ge a m h1, rangeList_of_ge m c h2]
    have hn : (a - c).toNat = (a - m).toNat + (m - c).toNat := by omega
    have hm : a - ((a - m).toNat : Int) = m := by omega
    rw [hn, descending_add, hm]

/-- A shorter distance in the same direction is representable too. -/
theorem count_inRange_of_le (T : IntType) (a c p q : Int)
    (hfit : T.inRange (if a < c then c - a else a - c))
    (hle : (if p < q then q - p else p - q) ≤ (if a < c then c - a else a - c)) :
    T.inRange (if p < q then q - p else p - q) := by
  refine ⟨?_, le_trans hle hfit.2⟩
  have := T.minVal_nonpos
  split <;> omega

/-- C16, as stated, fails: for `signed char` and the bounds `-128 <= -1 <= 126` the
two parts `integer_range<signed char, -128, -1>` and
`integer_range<signed char, -1, 126>` are generated, but the count 254 of the
whole is not a value of the type and `integer_range<signed char, -128, 126>` is
ill-formed. -/
theorem integer_range_split_counterexample :
    schar_t.inRange (-128) ∧ schar_t.inRange (-1) ∧ schar_t.inRange 126 ∧
      (-128 : Int) ≤ -1 ∧ (-1 : Int) ≤ 126 ∧
      integer_range schar_t (-128) 126 = none ∧
      ∃ s₁ s₂ : integer_sequence,
        integer_range schar_t (-128) (-1) = some s₁ ∧
        integer_range schar_t (-1) 126 = some s₂ :=
  ⟨by decide, by decide, by decide, by decide, by decide,
    integer_range_signed_none schar_t (-128) 126 rfl (by decide),
    _, _,
    integer_range_of_fit schar_t (-128) (-1) (by decide) (by decide) (by decide),
    integer_range_of_fit schar_t (-1) 126 (by decide) (by decide) (by decide)⟩

/-- C16, amended: for all bounds `a <= m <= c` (and likewise `a >= m >= c`) of
type `T` such that `T` is unsigned or `|c - a|` is at most the largest value of
`T`, the three ranges are generated, `integer_range<T, a, c>` is the
concatenation of `integer_range<T, a, m>` and `integer_range<T, m, c>`, and
`UnrolledLoop<T, a, c>(f)` makes the invocations of `UnrolledLoop<T, a, m>(f)`
followed by those of `UnrolledLoop<T, m, c>(f)`, ending in the same state. -/
theorem integer_range_split {σ : Type} (T : IntType) (a m c : Int)
    (ha : T.inRange a) (hm : T.inRange m) (hc : T.inRange c)
    (hord : (a ≤ m ∧ m ≤ c) ∨ (a ≥ m ∧ m ≥ c))
    (hspan : T.isSigned = true → |c - a| ≤ T.maxVal)
    (f : integral_constant → σ → σ) (st : σ) :
    (∃ s s₁ s₂ : integer_sequence,
      integer_range T a c = some s ∧ integer_range T a m = some s₁ ∧
      integer_range T m c = some s₂ ∧
      s.T = T ∧ s₁.T = T ∧ s₂.T = T ∧ s.inds = s₁.inds ++ s₂.inds) ∧
    (∃ r r₁ r₂ : σ × List integral_constant,
      UnrolledLoopC T a c (traced f) (st, []) = some r ∧
      UnrolledLoopC T a m (traced f) (st, []) = some r₁ ∧
      UnrolledLoopC T m c (traced f) (r₁.1, []) = some r₂ ∧
      r.2 = r₁.2 ++ r₂.2 ∧ r.1 = r₂.1) := by
  have hfit := count_inRange T a c ha hc hspan
  have h := integer_range_of_fit T a c ha hc hfit
  have h₁ := integer_range_of_fit T a m ha hm
    (count_inRange_of_le T a c a m hfit
      (by rcases hord with ⟨_, _⟩ | ⟨_, _⟩ <;> split <;> split <;> omega))
  have h₂ := integer_range_of_fit T m c hm hc
    (count_inRange_of_le T a c m c hfit
      (by rcases hord with ⟨_, _⟩ | ⟨_, _⟩ <;> split <;> split <;> omega))
  have happ := rangeList_append a m c hord
  constructor
  · exact ⟨_, _, _, h, h₁, h₂, rfl, rfl, rfl, happ⟩
  · refine ⟨(UnrolledLoop ⟨T, rangeList a c⟩ f st,
        (rangeList a c).map (integral_constant.mk T)),
      (UnrolledLoop ⟨T, rangeList a m⟩ f st,
        (rangeList a m).map (integral_constant.mk T)),
      (UnrolledLoop ⟨T, rangeList m c⟩ f (UnrolledLoop ⟨T, rangeList a m⟩ f st),
        (rangeList m c).map (integral_constant.mk T)), ?_, ?_, ?_, ?_, ?_⟩
    · rw [UnrolledLoopC_traced, h]
      rfl
    · rw [UnrolledLoopC_traced, h₁]
      rfl
    · rw [UnrolledLoopC_traced, h₂]
      rfl
    · simp only [happ, List.map_append]
    · simp only [UnrolledLoop, happ, List.foldl_append]

/-- C16, amended, at `a = 1`, `m = 4`, `c = 10` for `char`. -/
theorem integer_range_split_witness :
    char_t.inRange 1 ∧ char_t.inRange 4 ∧ char_t.inRange 10 ∧
      ((∃ s s₁ s₂ : integer_sequence,
        integer_range char_t 1 10 = some s ∧ integer_range char_t 1 4 = some s₁ ∧
        integer_range char_t 4 10 = some s₂ ∧
        s.T = char_t ∧ s₁.T = char_t ∧ s₂.T = char_t ∧ s.inds = s₁.inds ++ s₂.inds) ∧
      (∃ r r₁ r₂ : Int × List integral_constant,
        UnrolledLoopC char_t 1 10 (traced (fun i (c : Int) => 2 * c + i.value)) (0, []) =
          some r ∧
        UnrolledLoopC char_t 1 4 (traced (fun i (c : Int) => 2 * c + i.value)) (0, []) =
          some r₁ ∧
        UnrolledLoopC char_t 4 10 (traced (fun i (c : Int) => 2 * c + i.value)) (r₁.1, []) =
          some r₂ ∧
        r.2 = r₁.2 ++ r₂.2 ∧ r.1 = r₂.1)) :=
  ⟨by decide, by decide, by decide,
    integer_range_split char_t 1 4 10 (by decide) (by decide) (by decide)
      (Or.inl ⟨by decide, by decide⟩) (fun _ => by decide)
      (fun i (c : Int) => 2 * c + i.value) 0⟩

end UnrolledLoopSpec
